import Mathlib

/-!
Verification development for the `zippy` virtual-archive browser
(`src/main.cpp`).  The definitions below are a shallow embedding of the
program's data model and operations:

* `ArchiveItem` / `ArchiveModel::populateFromList` — the virtual tree and
  its lazy materialization from flat slash-delimited entry lists;
* `MainWindow::collectPathsRecursively` — recursive descendant-path
  collection;
* `MainWindow::attemptPasswordAndLoadArchive`,
  `MainWindow::tryPasswordsForEntryAndExtract`,
  `MainWindow::promptPasswordForArchiveAndLoad` — the layered password
  resolution protocol (per-archive cache, session pool, interactive prompt);
* `MainWindow::onArchiveDoubleClicked` — nested-archive descent;
* `loadMetadata` — manifest load / create-on-miss.

External collaborators (the `unzip`/`zip` CLI backend, Qt dialogs, the
filesystem) are modelled as explicit oracle parameters: e.g. a function
`listW : String → List String` gives the result of `backend->listEntries()`
after `backend->setPassword(pw)` has been called with `pw`, and
`prompt : Option String` is the outcome of a `QInputDialog` (none = the
user pressed Cancel).
-/

/-- Split a character list at every occurrence of `c`, keeping empty
pieces (the pieces of `QString::split` before `SkipEmptyParts` drops the
empty ones).  `acc` holds the current piece, reversed. -/
def qSplitChars (c : Char) : List Char → List Char → List (List Char)
  | [], acc => [acc.reverse]
  | d :: ds, acc => if d = c then acc.reverse :: qSplitChars c ds [] else qSplitChars c ds (d :: acc)

/-- Models `QString::split(c)` (keeping empty parts). -/
def qSplit (s : String) (c : Char) : List String :=
  (qSplitChars c s.data []).map (fun l => String.mk l)

/-- Models `QString::startsWith` as a literal string-prefix test. -/
def qStartsWith (s pfx : String) : Bool := pfx.data.isPrefixOf s.data

/-- Models `QString::endsWith` (case-sensitive form). -/
def qEndsWith (s sfx : String) : Bool := sfx.data.isSuffixOf s.data

/-- Lower-casing, used for the `Qt::CaseInsensitive` suffix test. -/
def qToLower (s : String) : String := String.mk (s.data.map Char.toLower)

/-- Models `QString::mid(n)`: the string with its first `n` characters removed. -/
def qDrop (s : String) (n : Nat) : String := String.mk (s.data.drop n)

/-- Models `QString::isEmpty`. -/
def qIsEmpty (s : String) : Bool := s.data.isEmpty

/-- Embeds `ArchiveItem::NodeType` from `src/main.cpp` (line 124). -/
inductive NodeType where
  | File : NodeType
  | Folder : NodeType
  | ArchiveFolder : NodeType
deriving DecidableEq

/-- Embeds `ArchiveItem` from `src/main.cpp` (lines 123-131).  The `parent`
back-pointer is omitted: ownership is parent → child, and the embedding
represents the tree by the root's (or any parent's) list of children.
`fullPathInArchive` and `childrenPopulated` keep their source names. -/
structure ArchiveItem where
  name : String
  type : NodeType
  fullPathInArchive : String
  childrenPopulated : Bool
  children : List ArchiveItem

/-- The classification expression of `populateFromList`
(`src/main.cpp` lines 171-173): a segment at index `i` of a split of size
`total`, from the original entry string `e`, becomes a `Folder` if it is
not the last segment or `e` ends with `/`; otherwise `ArchiveFolder` when
the segment name ends with `.vfsarc` case-insensitively, else `File`. -/
def classify (i total : Nat) (e part : String) : NodeType :=
  if i < total - 1 ∨ qEndsWith e "/" = true then NodeType.Folder
  else if qEndsWith (qToLower part) ".vfsarc" = true then NodeType.ArchiveFolder
  else NodeType.File

/-- The inner linear scan of one segment of
`ArchiveModel::populateFromList` (`src/main.cpp` lines 161-176): look for
a child named `p`; when found, descend into it with the continuation `k`
applied to the *unchanged* `accum` (exactly as the source leaves `accum`
untouched in the found branch); when the scan is exhausted, create a new
`ArchiveItem` (appending the segment to `accum`), give it the children
produced by continuing inside it with the extended `accum2`, and append
it at the end. -/
def insertScan (e : String) (total i : Nat) (p accum : String)
    (k : String → List ArchiveItem → List ArchiveItem) : List ArchiveItem → List ArchiveItem
  | [] =>
    let accum2 := if accum = "" then p else accum ++ "/" ++ p
    [ArchiveItem.mk p (classify i total e p) accum2 false (k accum2 [])]
  | c :: cs =>
    if c.name = p then { c with children := k accum c.children } :: cs
    else c :: insertScan e total i p accum k cs

/-- The per-entry segment walk of `ArchiveModel::populateFromList`
(`src/main.cpp` lines 157-177): process the split segments in order via
`insertScan`.  `e` is the original entry string and `total` the number of
segments of the split. -/
def insertLoop (e : String) (total : Nat) : List String → Nat → String → List ArchiveItem → List ArchiveItem
  | [], _, _, children => children
  | p :: rest, i, accum, children =>
    insertScan e total i p accum (fun a chs => insertLoop e total rest (i + 1) a chs) children

/-- Models `rel.split('/', QString::SkipEmptyParts)` after stripping the prefix
(`src/main.cpp` lines 155-156). -/
def splitEntry (pfx e : String) : List String :=
  let rel := if qIsEmpty pfx then e else qDrop e pfx.length
  (qSplit rel '/').filter (fun s => ¬ s = "")

/-- One iteration of the entry loop of `populateFromList`
(`src/main.cpp` lines 153-177): skip entries not starting with the prefix,
otherwise split and walk/insert.  `accum` starts at the prefix. -/
def processEntry (pfx : String) (cs : List ArchiveItem) (e : String) : List ArchiveItem :=
  if !(qIsEmpty pfx) && !(qStartsWith e pfx) then cs
  else
    let parts := splitEntry pfx e
    insertLoop e parts.length parts 0 pfx cs

/-- Embeds `ArchiveModel::populateFromList` (`src/main.cpp` lines 151-179),
acting on the children list of `parentNode`. -/
def populateFromList (entries : List String) (pfx : String) (cs : List ArchiveItem) : List ArchiveItem :=
  entries.foldl (processEntry pfx) cs

mutual

/-- Embeds `MainWindow::collectPathsRecursively` (`src/main.cpp` lines 494-502):
a `File` or `ArchiveFolder` node contributes its `fullPathInArchive`; a
`Folder` contributes its children's collections in child order. -/
def collectPaths : ArchiveItem → List String
  | ArchiveItem.mk _ ty fp _ children =>
    match ty with
    | NodeType.Folder => collectPathsList children
    | _ => [fp]

/-- Concatenation of `collectPaths` over a children list, in order. -/
def collectPathsList : List ArchiveItem → List String
  | [] => []
  | c :: cs => collectPaths c ++ collectPathsList cs

end

/-- First child with the given name, as the linear scans at
`src/main.cpp` lines 162-164 and 242-245 find it. -/
def findByName (p : String) : List ArchiveItem → Option ArchiveItem
  | [] => none
  | c :: cs => if c.name = p then some c else findByName p cs

/-- Locate a node by its name path below a children list (the walk of
`ArchiveModel::findNodeByPath`, `src/main.cpp` lines 236-249, relative to
a parent's children). -/
def nodeAtPath : List ArchiveItem → List String → Option ArchiveItem
  | _, [] => none
  | cs, p :: rest =>
    match findByName p cs with
    | none => none
    | some c =>
      match rest with
      | [] => some c
      | q :: qs => nodeAtPath c.children (q :: qs)

/-- A name path is fully present below the given children list. -/
def containsPath : List ArchiveItem → List String → Bool
  | _, [] => true
  | cs, p :: rest =>
    match findByName p cs with
    | none => false
    | some c => containsPath c.children rest

/-- The four creation-time fields of an `ArchiveItem` agree (everything
except the `children` subtree). -/
def sameNode (a b : ArchiveItem) : Prop :=
  a.name = b.name ∧ a.type = b.type ∧
  a.fullPathInArchive = b.fullPathInArchive ∧ a.childrenPopulated = b.childrenPopulated

/-- The spec's classification rule, stated in the spec's own terms: a
segment is `Folder` if it is not the last segment of the split or the
original entry string ends with `/`; otherwise it is `ArchiveFolder`
(`NestedArchive`) if its name ends with the reserved suffix
case-insensitively, else `File`. -/
def classifySpec (isLast endsSlash : Bool) (name : String) : NodeType :=
  if !isLast || endsSlash then NodeType.Folder
  else if qEndsWith (qToLower name) ".vfsarc" then NodeType.ArchiveFolder
  else NodeType.File

/-- Outcome of one password-resolution attempt (spec §4.3). -/
inductive Outcome where
  | Resolved : String → Outcome
  | Cancelled : Outcome
  | Exhausted : Outcome
deriving DecidableEq

/-- Lookup in the per-archive password cache (`QMap<QString, QString>`
`passwordCache`, keyed by archive path), modelled as an association list
with at most one binding per key. -/
def lookupCache : List (String × String) → String → Option String
  | [], _ => none
  | (k, v) :: rest, key => if k = key then some v else lookupCache rest key

/-- Models `passwordCache[archivePath] = pw`: replace the existing binding or
append a new one. -/
def cacheInsert (key val : String) : List (String × String) → List (String × String)
  | [] => [(key, val)]
  | (k, v) :: rest => if k = key then (key, val) :: rest else (k, v) :: cacheInsert key val rest

/-- Result of `MainWindow::attemptPasswordAndLoadArchive`
(`src/main.cpp` lines 505-538).  `cache`/`pool` are the values of
`passwordCache`/`globalPasswords` after the attempt, `loaded` is
`some entries` when `loadArchiveEntries` was invoked with `entries`, and
`attempts` logs, in order, every password that was set on the backend
followed by a `listEntries` call. -/
structure ResolveResult where
  outcome : Outcome
  cache : List (String × String)
  pool : List String
  loaded : Option (List String)
  attempts : List String
deriving DecidableEq

/-- Step 3 of the resolution (`src/main.cpp` lines 523-537): prompt the
user; on Cancel return unchanged; otherwise set the provided password
(empty permitted), list, and on a non-empty listing cache it for this
archive and append it to the pool when non-empty and not yet present.
`listW pw` is the backend listing after `setPassword(pw)`. -/
def promptStep (listW : String → List String) (apath : String)
    (cache : List (String × String)) (pool : List String)
    (prompt : Option String) (log : List String) : ResolveResult :=
  match prompt with
  | none => ResolveResult.mk Outcome.Cancelled cache pool none log
  | some pw =>
    let es := listW pw
    if es.isEmpty then ResolveResult.mk Outcome.Exhausted cache pool none (log ++ [pw])
    else
      ResolveResult.mk (Outcome.Resolved pw) (cacheInsert apath pw cache)
        (if !(qIsEmpty pw) && !(pool.contains pw) then pool ++ [pw] else pool)
        (some es) (log ++ [pw])

/-- Step 2 of the resolution (`src/main.cpp` lines 513-522): iterate the
session pool `cand` in insertion order; the first candidate with a
non-empty listing is cached for this archive and resolves; if none works,
fall through to the prompt.  `pool` is the full `globalPasswords` value
(unchanged by this loop). -/
def poolLoop (listW : String → List String) (apath : String)
    (cache : List (String × String)) (pool : List String)
    (prompt : Option String) : List String → List String → ResolveResult
  | [], log => promptStep listW apath cache pool prompt log
  | pw :: rest, log =>
    let es := listW pw
    if es.isEmpty then poolLoop listW apath cache pool prompt rest (log ++ [pw])
    else ResolveResult.mk (Outcome.Resolved pw) (cacheInsert apath pw cache) pool (some es) (log ++ [pw])

/-- Embeds `MainWindow::attemptPasswordAndLoadArchive` (`src/main.cpp` lines
505-538): try the per-archive cached password first, then the session
pool, then prompt. -/
def attemptPasswordAndLoadArchive (listW : String → List String)
    (cache : List (String × String)) (pool : List String)
    (apath : String) (prompt : Option String) : ResolveResult :=
  match lookupCache cache apath with
  | some cpw =>
    let es := listW cpw
    if es.isEmpty then poolLoop listW apath cache pool prompt pool [cpw]
    else ResolveResult.mk (Outcome.Resolved cpw) cache pool (some es) [cpw]
  | none => poolLoop listW apath cache pool prompt pool []

/-- The pool scan of `MainWindow::tryPasswordsForEntryAndExtract`
(`src/main.cpp` lines 548-552).  `extractW pw` is the result of
`backend->extractEntryToTemp(entry, ...)` after `setPassword(pw)`
(`some tmpPath` on success).  Returns (success, outTmp, attempts log). -/
def tryPoolExtract (extractW : String → Option String) : List String → List String → Bool × Option String × List String
  | [], log => (false, none, log)
  | pw :: rest, log =>
    match extractW pw with
    | some t => (true, some t, log ++ [pw])
    | none => tryPoolExtract extractW rest (log ++ [pw])

/-- Embeds `MainWindow::tryPasswordsForEntryAndExtract` (`src/main.cpp` lines
541-554): try the cached password for the current archive, then the
session pool.  The source reads `passwordCache` and `globalPasswords` but
never writes them here; the returned `cache`/`pool` components are their
(unchanged) values after the call. -/
def tryPasswordsForEntryAndExtract (extractW : String → Option String)
    (cache : List (String × String)) (pool : List String) (apath : String) :
    (Bool × Option String × List String) × List (String × String) × List String :=
  let r :=
    match lookupCache cache apath with
    | some cpw =>
      match extractW cpw with
      | some t => (true, some t, [cpw])
      | none => tryPoolExtract extractW pool [cpw]
    | none => tryPoolExtract extractW pool []
  (r, cache, pool)

/-- Embeds `MainWindow::promptPasswordForArchiveAndLoad` (`src/main.cpp` lines
556-586), up to the point where a successfully extracted nested archive
is opened: prompt for a password to extract the nested entry; if the user
cancels **or the provided password is empty**, return without attempting
anything; otherwise set the password, attempt the extraction, and on
success store the password in the cache for the current archive and
append it to the pool when not yet present.  Returns
(cache, pool, attempts log, extraction succeeded). -/
def promptPasswordForArchiveAndLoad (extractW : String → Option String)
    (cache : List (String × String)) (pool : List String)
    (apath : String) (prompt : Option String) :
    List (String × String) × List String × List String × Bool :=
  match prompt with
  | none => (cache, pool, [], false)
  | some pw =>
    if qIsEmpty pw then (cache, pool, [], false)
    else
      match extractW pw with
      | some _ =>
        (cacheInsert apath pw cache,
         (if !(pool.contains pw) then pool ++ [pw] else pool), [pw], true)
      | none => (cache, pool, [pw], false)

/-- Models `QFileInfo::fileName()`: the final path component. -/
def fileNameOf (p : String) : String := (qSplit p '/').getLastD ""

/-- The `MainWindow` state the navigation claims are about: the archive
file the active backend is bound to, `currentArchive`, the breadcrumb
`archiveStack`, the children of the archive model's root, and the list of
backends released so far (`delete backend`), identified by the archive
file each was bound to. -/
structure WinState where
  backendArchive : String
  currentArchive : String
  archiveStack : List String
  tree : List ArchiveItem
  released : List String

/-- Embeds `MainWindow::onArchiveDoubleClicked` (`src/main.cpp` lines 385-420)
restricted to its model-state effects.  `extractResult` is the outcome of
extracting `entry` to a temporary file (directly or via
`tryPasswordsForEntryAndExtract`, modelled separately) and `tmpExists`
models `nested->openArchive(tmp)` (`QFile::exists`).  On an
`ArchiveFolder` node with a successfully extracted and openable temp
file: push one breadcrumb frame labelled with the outer archive's file
name and the entry path, release the previous backend, bind to the new
one, and rebuild the tree from the nested backend's root listing
(`listing`).  On a `File` node the handler only previews, leaving this
state unchanged; the prompting fallback on extraction failure is
`promptPasswordForArchiveAndLoad`, modelled separately. -/
def onArchiveDoubleClicked (st : WinState) (ty : NodeType) (entry : String)
    (extractResult : Option String) (tmpExists : Bool) (listing : List String) : WinState :=
  if ty = NodeType.ArchiveFolder then
    match extractResult with
    | some tmp =>
      if tmpExists then
        WinState.mk tmp tmp
          (st.archiveStack ++ [fileNameOf st.currentArchive ++ ":" ++ entry])
          (populateFromList listing "" [])
          (st.released ++ [st.backendArchive])
      else st
    | none => st
  else st

/-- The decoded content of `.manifest.json` when extraction and JSON
parsing succeed: `version`/`created` may be absent (`QJsonObject::value`
defaults), `tags` is the decoded string array. -/
structure ManifestFile where
  version : Option String
  created : Option String
  tags : List String

/-- Embeds `ArchiveMetadata` from `src/main.cpp` (lines 260-264). -/
structure ArchiveMetadata where
  version : String
  created : String
  tags : List String
deriving DecidableEq

/-- Embeds `loadMetadata` (`src/main.cpp` lines 266-290).  The first argument
models `backend->extractEntryToTemp(".manifest.json", ...)` followed by
opening the extracted file: `none` = extraction failed (entry absent),
`some none` = extracted but the file could not be opened (metadata left
default-constructed), `some (some mf)` = decoded JSON object `mf`.
`now` is `QDateTime::currentDateTime().toString(Qt::ISODate)`.  The
second component of the result is `some m` when the synthesized record
`m` was written back into the archive via `backend->addFiles`, `none`
when no write happened. -/
def loadMetadata : Option (Option ManifestFile) → String → ArchiveMetadata × Option ArchiveMetadata
  | some (some mf), _ =>
    (ArchiveMetadata.mk (mf.version.getD "1.0") (mf.created.getD "") mf.tags, none)
  | some none, _ => (ArchiveMetadata.mk "" "" [], none)
  | none, now =>
    let meta := ArchiveMetadata.mk "1.0" now ["new"]
    (meta, some meta)

/-- Entry `e` needs no work against the children list `cs`: it is either
skipped by the prefix filter or its full segment path is already present. -/
def entryDone (pfx e : String) (cs : List ArchiveItem) : Prop :=
  (!(qIsEmpty pfx) && !(qStartsWith e pfx)) = true ∨ containsPath cs (splitEntry pfx e) = true

theorem ArchiveItem.eta (c : ArchiveItem) :
    ArchiveItem.mk c.name c.type c.fullPathInArchive c.childrenPopulated c.children = c := by
  cases c
  rfl

theorem findByName_cons_pos {c : ArchiveItem} {p : String} (cs : List ArchiveItem)
    (hn : c.name = p) : findByName p (c :: cs) = some c := by
  simp [findByName, hn]

theorem findByName_cons_neg {c : ArchiveItem} {p : String} (cs : List ArchiveItem)
    (hn : ¬ c.name = p) : findByName p (c :: cs) = findByName p cs := by
  simp [findByName, hn]

theorem containsPath_cons_eq (c : ArchiveItem) (cs : List ArchiveItem) (p : String)
    (rest : List String) :
    containsPath (c :: cs) (p :: rest) =
      if c.name = p then containsPath c.children rest else containsPath cs (p :: rest) := by
  by_cases hn : c.name = p
  · simp [containsPath, findByName_cons_pos cs hn, hn]
  · simp only [if_neg hn]
    show (match findByName p (c :: cs) with
          | none => false
          | some ch => containsPath ch.children rest) = containsPath cs (p :: rest)
    rw [findByName_cons_neg cs hn]
    rfl

theorem insertLoop_id_of_contains (e : String) (total : Nat) :
    ∀ (parts : List String) (i : Nat) (accum : String) (cs : List ArchiveItem),
      containsPath cs parts = true → insertLoop e total parts i accum cs = cs := by
  intro parts
  induction parts with
  | nil => intro i accum cs _; rfl
  | cons p rest ih =>
    intro i accum cs
    induction cs with
    | nil =>
      intro h
      simp [containsPath, findByName] at h
    | cons c cs' ih2 =>
      intro h
      rw [containsPath_cons_eq] at h
      show insertScan e total i p accum
        (fun a chs => insertLoop e total rest (i + 1) a chs) (c :: cs') = c :: cs'
      by_cases hn : c.name = p
      · rw [if_pos hn] at h
        simp only [insertScan, if_pos hn]
        rw [ih (i + 1) accum c.children h, ArchiveItem.eta]
      · rw [if_neg hn] at h
        simp only [insertScan, if_neg hn]
        exact congrArg (List.cons c) (ih2 h)

theorem insertLoop_contains_self (e : String) (total : Nat) :
    ∀ (parts : List String) (i : Nat) (accum : String) (cs : List ArchiveItem),
      containsPath (insertLoop e total parts i accum cs) parts = true := by
  intro parts
  induction parts with
  | nil => intro i accum cs; rfl
  | cons p rest ih =>
    intro i accum cs
    induction cs with
    | nil =>
      show containsPath (insertScan e total i p accum
        (fun a chs => insertLoop e total rest (i + 1) a chs) []) (p :: rest) = true
      simp only [insertScan]
      rw [containsPath_cons_eq]
      simp only [if_pos rfl]
      exact ih (i + 1) _ []
    | cons c cs' ih2 =>
      show containsPath (insertScan e total i p accum
        (fun a chs => insertLoop e total rest (i + 1) a chs) (c :: cs')) (p :: rest) = true
      by_cases hn : c.name = p
      · simp only [insertScan, if_pos hn]
        rw [containsPath_cons_eq]
        simp only [if_pos hn]
        exact ih (i + 1) accum c.children
      · simp only [insertScan, if_neg hn]
        rw [containsPath_cons_eq]
        simp only [if_neg hn]
        exact ih2

theorem insertLoop_preserves_contains (e : String) (total : Nat) :
    ∀ (parts' : List String) (i : Nat) (accum : String) (cs : List ArchiveItem)
      (parts : List String),
      containsPath cs parts = true →
      containsPath (insertLoop e total parts' i accum cs) parts = true := by
  intro parts'
  induction parts' with
  | nil => intro i accum cs parts h; exact h
  | cons p' rest' ih =>
    intro i accum cs parts
    cases parts with
    | nil => intro _; rfl
    | cons q qr =>
      induction cs with
      | nil =>
        intro h
        simp [containsPath, findByName] at h
      | cons c cs' ih2 =>
        intro h
        rw [containsPath_cons_eq] at h
        show containsPath (insertScan e total i p' accum
          (fun a chs => insertLoop e total rest' (i + 1) a chs) (c :: cs')) (q :: qr) = true
        by_cases hp : c.name = p'
        · simp only [insertScan, if_pos hp]
          rw [containsPath_cons_eq]
          by_cases hq : c.name = q
          · rw [if_pos hq] at h
            simp only [hq, if_pos rfl]
            exact ih (i + 1) accum c.children qr h
          · rw [if_neg hq] at h
            simp only [if_neg hq]
            exact h
        · simp only [insertScan, if_neg hp]
          rw [containsPath_cons_eq]
          by_cases hq : c.name = q
          · rw [if_pos hq] at h
            simp only [if_pos hq]
            exact h
          · rw [if_neg hq] at h
            simp only [if_neg hq]
            exact ih2 h

theorem processEntry_id (pfx e : String) (cs : List ArchiveItem) (h : entryDone pfx e cs) :
    processEntry pfx cs e = cs := by
  cases h with
  | inl hskip => simp [processEntry, hskip]
  | inr hcont =>
    by_cases hskip : (!(qIsEmpty pfx) && !(qStartsWith e pfx)) = true
    · simp [processEntry, hskip]
    · simp only [processEntry, if_neg hskip]
      exact insertLoop_id_of_contains e _ _ 0 pfx cs hcont

theorem processEntry_done (pfx e : String) (cs : List ArchiveItem) :
    entryDone pfx e (processEntry pfx cs e) := by
  by_cases hskip : (!(qIsEmpty pfx) && !(qStartsWith e pfx)) = true
  · exact Or.inl hskip
  · refine Or.inr ?_
    simp only [processEntry, if_neg hskip]
    exact insertLoop_contains_self e _ _ 0 pfx cs

theorem processEntry_preserves_contains (pfx e' : String) (cs : List ArchiveItem)
    (parts : List String) (h : containsPath cs parts = true) :
    containsPath (processEntry pfx cs e') parts = true := by
  by_cases hskip : (!(qIsEmpty pfx) && !(qStartsWith e' pfx)) = true
  · simpa [processEntry, hskip] using h
  · simp only [processEntry, if_neg hskip]
    exact insertLoop_preserves_contains e' _ _ 0 pfx cs parts h

theorem processEntry_preserves_done (pfx e e' : String) (cs : List ArchiveItem)
    (h : entryDone pfx e cs) : entryDone pfx e (processEntry pfx cs e') := by
  cases h with
  | inl hskip => exact Or.inl hskip
  | inr hcont => exact Or.inr (processEntry_preserves_contains pfx e' cs _ hcont)

theorem populate_preserves_done (pfx e : String) :
    ∀ (entries : List String) (cs : List ArchiveItem),
      entryDone pfx e cs → entryDone pfx e (populateFromList entries pfx cs) := by
  intro entries
  induction entries with
  | nil => intro cs h; exact h
  | cons x xs ih =>
    intro cs h
    exact ih (processEntry pfx cs x) (processEntry_preserves_done pfx e x cs h)

theorem populate_done (pfx : String) :
    ∀ (entries : List String) (cs : List ArchiveItem) (e : String),
      e ∈ entries → entryDone pfx e (populateFromList entries pfx cs) := by
  intro entries
  induction entries with
  | nil => intro cs e he; cases he
  | cons x xs ih =>
    intro cs e he
    cases he with
    | head =>
      exact populate_preserves_done pfx x xs (processEntry pfx cs x) (processEntry_done pfx x cs)
    | tail _ hmem => exact ih (processEntry pfx cs x) e hmem

theorem populate_id (pfx : String) :
    ∀ (entries : List String) (cs : List ArchiveItem),
      (∀ e ∈ entries, entryDone pfx e cs) → populateFromList entries pfx cs = cs := by
  intro entries
  induction entries with
  | nil => intro cs _; rfl
  | cons x xs ih =>
    intro cs h
    show populateFromList xs pfx (processEntry pfx cs x) = cs
    rw [processEntry_id pfx x cs (h x (List.mem_cons_self x xs))]
    exact ih cs (fun e he => h e (List.mem_cons_of_mem x he))

theorem nodeAtPath_cons_pos_nil {c : ArchiveItem} {q : String} (cs : List ArchiveItem)
    (hn : c.name = q) : nodeAtPath (c :: cs) [q] = some c := by
  rw [nodeAtPath, findByName_cons_pos cs hn]

theorem nodeAtPath_cons_pos_cons {c : ArchiveItem} {q : String} (cs : List ArchiveItem)
    (r : String) (rs : List String) (hn : c.name = q) :
    nodeAtPath (c :: cs) (q :: r :: rs) = nodeAtPath c.children (r :: rs) := by
  rw [nodeAtPath, findByName_cons_pos cs hn]

theorem nodeAtPath_cons_neg {c : ArchiveItem} {q : String} (cs : List ArchiveItem)
    (qr : List String) (hn : ¬ c.name = q) :
    nodeAtPath (c :: cs) (q :: qr) = nodeAtPath cs (q :: qr) := by
  rw [nodeAtPath, nodeAtPath, findByName_cons_neg cs hn]

theorem sameNode_refl (a : ArchiveItem) : sameNode a a := ⟨rfl, rfl, rfl, rfl⟩

theorem sameNode_trans {a b c : ArchiveItem} (h1 : sameNode a b) (h2 : sameNode b c) :
    sameNode a c :=
  ⟨h1.1.trans h2.1, h1.2.1.trans h2.2.1, h1.2.2.1.trans h2.2.2.1, h1.2.2.2.trans h2.2.2.2⟩

theorem insertLoop_preserves_node (e : String) (total : Nat) :
    ∀ (parts' : List String) (i : Nat) (accum : String) (cs : List ArchiveItem)
      (path : List String) (node : ArchiveItem),
      nodeAtPath cs path = some node →
      ∃ node', nodeAtPath (insertLoop e total parts' i accum cs) path = some node' ∧
        sameNode node node' := by
  intro parts'
  induction parts' with
  | nil => intro i accum cs path node h; exact ⟨node, h, sameNode_refl node⟩
  | cons p' rest' ih =>
    intro i accum cs path node
    cases path with
    | nil => intro h; simp [nodeAtPath] at h
    | cons q qr =>
      induction cs with
      | nil => intro h; simp [nodeAtPath, findByName] at h
      | cons c cs' ih2 =>
        intro h
        show ∃ node', nodeAtPath (insertScan e total i p' accum
          (fun a chs => insertLoop e total rest' (i + 1) a chs) (c :: cs')) (q :: qr) =
            some node' ∧ sameNode node node'
        by_cases hp : c.name = p'
        · simp only [insertScan, if_pos hp]
          by_cases hq : c.name = q
          · cases qr with
            | nil =>
              rw [nodeAtPath_cons_pos_nil cs' hq] at h
              injection h with h
              subst h
              exact ⟨_, @nodeAtPath_cons_pos_nil
                { c with children := insertLoop e total rest' (i + 1) accum c.children }
                q cs' hq, ⟨rfl, rfl, rfl, rfl⟩⟩
            | cons r rs =>
              rw [nodeAtPath_cons_pos_cons cs' r rs hq] at h
              obtain ⟨node', h', hsame⟩ := ih (i + 1) accum c.children (r :: rs) node h
              exact ⟨node', (@nodeAtPath_cons_pos_cons
                { c with children := insertLoop e total rest' (i + 1) accum c.children }
                q cs' r rs hq).trans h', hsame⟩
          · rw [nodeAtPath_cons_neg cs' qr hq] at h
            exact ⟨node, (@nodeAtPath_cons_neg
              { c with children := insertLoop e total rest' (i + 1) accum c.children }
              q cs' qr hq).trans h, sameNode_refl node⟩
        · simp only [insertScan, if_neg hp]
          by_cases hq : c.name = q
          · cases qr with
            | nil =>
              rw [nodeAtPath_cons_pos_nil cs' hq] at h
              injection h with h
              subst h
              exact ⟨c, nodeAtPath_cons_pos_nil _ hq, sameNode_refl c⟩
            | cons r rs =>
              rw [nodeAtPath_cons_pos_cons cs' r rs hq] at h
              exact ⟨node, by rw [nodeAtPath_cons_pos_cons _ r rs hq]; exact h, sameNode_refl node⟩
          · rw [nodeAtPath_cons_neg cs' qr hq] at h
            obtain ⟨node', h', hsame⟩ := ih2 h
            exact ⟨node', by rw [nodeAtPath_cons_neg _ qr hq]; exact h', hsame⟩

theorem processEntry_preserves_node (pfx e' : String) (cs : List ArchiveItem)
    (path : List String) (node : ArchiveItem) (h : nodeAtPath cs path = some node) :
    ∃ node', nodeAtPath (processEntry pfx cs e') path = some node' ∧ sameNode node node' := by
  by_cases hskip : (!(qIsEmpty pfx) && !(qStartsWith e' pfx)) = true
  · refine ⟨node, ?_, sameNode_refl node⟩
    simpa [processEntry, hskip] using h
  · simp only [processEntry, if_neg hskip]
    exact insertLoop_preserves_node e' _ _ 0 pfx cs path node h

/-- C5: materialization is idempotent — re-running `populateFromList`
with the same entries and prefix against the already-populated subtree
produces an identical tree, with no duplicate nodes created
(lookup-by-name before insert). -/
theorem populateFromList_idempotent (entries : List String) (pfx : String)
    (cs : List ArchiveItem) :
    populateFromList entries pfx (populateFromList entries pfx cs) =
      populateFromList entries pfx cs :=
  populate_id pfx entries (populateFromList entries pfx cs)
    (fun e he => populate_done pfx entries cs e he)

theorem populate_preserves_node_aux (pfx : String) :
    ∀ (entries : List String) (cs : List ArchiveItem) (path : List String)
      (node : ArchiveItem),
      nodeAtPath cs path = some node →
      ∃ node', nodeAtPath (populateFromList entries pfx cs) path = some node' ∧
        sameNode node node' := by
  intro entries
  induction entries with
  | nil => intro cs path node h; exact ⟨node, h, sameNode_refl node⟩
  | cons x xs ih =>
    intro cs path node h
    obtain ⟨n1, h1, s1⟩ := processEntry_preserves_node pfx x cs path node h
    obtain ⟨n2, h2, s2⟩ := ih (processEntry pfx cs x) path n1 h1
    exact ⟨n2, h2, sameNode_trans s1 s2⟩

/-- C10: `populateFromList` never mutates a pre-existing node — a node
reachable at a name path before materialization is still there afterwards
with the same `name`, `type`, `fullPathInArchive` and `childrenPopulated`
(only its subtree can grow); in particular a later entry in which the
same name reappears with a different shape never reclassifies an
already-created node. -/
theorem populateFromList_preserves_nodes (entries : List String) (pfx : String)
    (cs : List ArchiveItem) (path : List String) (node : ArchiveItem)
    (h : nodeAtPath cs path = some node) :
    ∃ node', nodeAtPath (populateFromList entries pfx cs) path = some node' ∧
      sameNode node node' :=
  populate_preserves_node_aux pfx entries cs path node h

/-- Witness for C10: a `File` node `"a"` survives re-materialization of
the folder-shaped entry `"a/"` unchanged in all four creation fields. -/
theorem populateFromList_preserves_nodes_witness :
    ∃ node', nodeAtPath (populateFromList ["a/"] ""
        [ArchiveItem.mk "a" NodeType.File "a" false []]) ["a"] = some node' ∧
      sameNode (ArchiveItem.mk "a" NodeType.File "a" false []) node' :=
  populateFromList_preserves_nodes ["a/"] "" [ArchiveItem.mk "a" NodeType.File "a" false []]
    ["a"] (ArchiveItem.mk "a" NodeType.File "a" false []) rfl

theorem poolLoop_all_fail (listW : String → List String) (apath : String)
    (cache : List (String × String)) (pool : List String) (prompt : Option String) :
    ∀ (cand log : List String), (∀ pw ∈ cand, listW pw = []) →
      poolLoop listW apath cache pool prompt cand log =
        promptStep listW apath cache pool prompt (log ++ cand) := by
  intro cand
  induction cand with
  | nil =>
    intro log _
    rw [List.append_nil]
    rfl
  | cons pw rest ih =>
    intro log hfail
    have hpw : listW pw = [] := hfail pw (List.mem_cons_self pw rest)
    simp only [poolLoop, hpw, List.isEmpty_nil, if_true]
    rw [ih (log ++ [pw]) (fun q hq => hfail q (List.mem_cons_of_mem pw hq)),
      List.append_assoc]
    rfl

/-- C7: on a cache miss with an exhausted (or empty) pool, a cancelled
prompt yields outcome Cancelled and leaves both the password cache and
the password pool unchanged. -/
theorem prompt_cancel_no_mutation (listW : String → List String)
    (cache : List (String × String)) (pool : List String) (apath : String)
    (hmiss : lookupCache cache apath = none) (hfail : ∀ pw ∈ pool, listW pw = []) :
    attemptPasswordAndLoadArchive listW cache pool apath none =
      ResolveResult.mk Outcome.Cancelled cache pool none pool := by
  simp only [attemptPasswordAndLoadArchive, hmiss]
  rw [poolLoop_all_fail listW apath cache pool none pool [] hfail]
  rfl

/-- Witness for C7 at a concrete archive, empty cache and a one-element
pool whose candidate fails. -/
theorem prompt_cancel_no_mutation_witness :
    attemptPasswordAndLoadArchive (fun _ => []) [] ["x"] "/h/A.vfsarc" none =
      ResolveResult.mk Outcome.Cancelled [] ["x"] none ["x"] :=
  prompt_cancel_no_mutation (fun _ => []) [] ["x"] "/h/A.vfsarc" rfl (fun _ _ => rfl)

/-- C3 counterexample: in the extraction retry loop
(`tryPasswordsForEntryAndExtract`), the pool candidate `"y"` succeeds,
yet no binding is stored into the password cache for the archive path —
refuting the claim that the first succeeding candidate is additionally
stored into the cache for the operation being an extraction. -/
theorem tryPasswords_extract_no_cache_store :
    tryPasswordsForEntryAndExtract (fun pw => if pw = "y" then some "/tmp/out" else none)
        [] ["y"] "/home/u/A.vfsarc" = ((true, some "/tmp/out", ["y"]), [], ["y"]) ∧
      lookupCache [] "/home/u/A.vfsarc" = none :=
  ⟨rfl, rfl⟩

/-- C3 (amended): on a cache miss, resolution iterates the pool in
insertion order; with pool `["x", "y"]` where only `"y"` succeeds, the
listing flow resolves to `"y"`, stores it into the cache for this
archive, and never consults the prompt; the extraction retry loop also
resolves with `"y"` after trying `"x"`, but leaves cache and pool
unchanged. -/
theorem passwordPool_resolution_order (listW : String → List String)
    (extractW : String → Option String) (cache : List (String × String))
    (apath : String) (prompt : Option String) (es : List String) (t : String)
    (hmiss : lookupCache cache apath = none)
    (hx : listW "x" = []) (hy : listW "y" = es) (hes : es ≠ [])
    (hex : extractW "x" = none) (hey : extractW "y" = some t) :
    attemptPasswordAndLoadArchive listW cache ["x", "y"] apath prompt =
        ResolveResult.mk (Outcome.Resolved "y") (cacheInsert apath "y" cache) ["x", "y"]
          (some es) ["x", "y"] ∧
      tryPasswordsForEntryAndExtract extractW cache ["x", "y"] apath =
        ((true, some t, ["x", "y"]), cache, ["x", "y"]) := by
  have hesb : es.isEmpty = false := by
    cases es with
    | nil => exact absurd rfl hes
    | cons a as => rfl
  constructor
  · simp [attemptPasswordAndLoadArchive, poolLoop, hmiss, hx, hy, hesb]
  · simp [tryPasswordsForEntryAndExtract, tryPoolExtract, hmiss, hex, hey]

/-- Witness for C3 at concrete oracles succeeding only with `"y"`. -/
theorem passwordPool_resolution_order_witness :
    attemptPasswordAndLoadArchive (fun pw => if pw = "y" then ["e1"] else []) []
        ["x", "y"] "/h/A.vfsarc" none =
        ResolveResult.mk (Outcome.Resolved "y") (cacheInsert "/h/A.vfsarc" "y" []) ["x", "y"]
          (some ["e1"]) ["x", "y"] ∧
      tryPasswordsForEntryAndExtract (fun pw => if pw = "y" then some "/t" else none) []
        ["x", "y"] "/h/A.vfsarc" = ((true, some "/t", ["x", "y"]), [], ["x", "y"]) :=
  passwordPool_resolution_order (fun pw => if pw = "y" then ["e1"] else [])
    (fun pw => if pw = "y" then some "/t" else none) [] "/h/A.vfsarc" none ["e1"] "/t"
    rfl rfl rfl (by decide) rfl rfl

/-- C8 counterexample: the nested-extraction prompt
(`promptPasswordForArchiveAndLoad`) with a *confirmed empty* password
returns without setting the password or attempting the extraction (empty
attempts log), even though the backend would have succeeded — refuting
the claim that every confirmed password, including the empty one, is set
and attempted. -/
theorem nested_prompt_rejects_empty :
    promptPasswordForArchiveAndLoad (fun _ => some "/tmp/x") [] [] "/h/A.vfsarc" (some "") =
        ([], [], [], false) ∧ (([] : List String) ≠ [""]) :=
  ⟨rfl, by decide⟩

theorem promptStep_attempts (listW : String → List String) (apath : String)
    (cache : List (String × String)) (pool : List String) (pw : String)
    (log : List String) :
    (promptStep listW apath cache pool (some pw) log).attempts = log ++ [pw] := by
  simp only [promptStep]
  by_cases hb : (listW pw).isEmpty = true <;> simp [hb]

/-- C8 (amended): in the archive-open flow
(`attemptPasswordAndLoadArchive`), whenever the user confirms the prompt
the provided password — including the empty password — is set on the
backend and the listing attempted; the nested-extraction prompt
(`promptPasswordForArchiveAndLoad`), however, treats a confirmed empty
password like a cancel and attempts nothing. -/
theorem prompt_empty_password_attempted (listW : String → List String)
    (extractW : String → Option String) (cache : List (String × String))
    (pool : List String) (apath pw : String)
    (hmiss : lookupCache cache apath = none) (hfail : ∀ q ∈ pool, listW q = []) :
    (attemptPasswordAndLoadArchive listW cache pool apath (some pw)).attempts =
        pool ++ [pw] ∧
      promptPasswordForArchiveAndLoad extractW cache pool apath (some "") =
        (cache, pool, [], false) := by
  constructor
  · simp only [attemptPasswordAndLoadArchive, hmiss]
    rw [poolLoop_all_fail listW apath cache pool (some pw) pool [] hfail]
    exact promptStep_attempts listW apath cache pool pw ([] ++ pool)
  · rfl

/-- Witness for C8: the empty password is attempted by the archive-open
prompt, and rejected without attempt by the nested-extraction prompt. -/
theorem prompt_empty_password_attempted_witness :
    (attemptPasswordAndLoadArchive (fun _ => ["e"]) [] [] "/h/A.vfsarc" (some "")).attempts =
        [] ++ [""] ∧
      promptPasswordForArchiveAndLoad (fun _ => some "/t") [] [] "/h/A.vfsarc" (some "") =
        ([], [], [], false) :=
  prompt_empty_password_attempted (fun _ => ["e"]) (fun _ => some "/t") [] [] "/h/A.vfsarc" ""
    rfl (fun q hq => absurd hq (List.not_mem_nil q))

/-- C6: activating a `NestedArchive` entry whose extraction succeeded
(and whose temp file opens) pushes one breadcrumb frame labelled with the
outer archive's file name and the entry path, binds the backend to the
extracted temp file, releases the previous backend, and rebuilds the
tree from the nested backend's root-level listing. -/
theorem nested_descend_breadcrumb (st : WinState) (A entry tmp : String)
    (listing : List String) (hcur : st.currentArchive = A)
    (hstack : st.archiveStack = [fileNameOf A]) :
    onArchiveDoubleClicked st NodeType.ArchiveFolder entry (some tmp) true listing =
      WinState.mk tmp tmp [fileNameOf A, fileNameOf A ++ ":" ++ entry]
        (populateFromList listing "" []) (st.released ++ [st.backendArchive]) := by
  simp [onArchiveDoubleClicked, hcur, hstack]

/-- Witness for C6: descending into `"folder/inner.vfsarc"` from a
freshly opened `A.vfsarc` makes the breadcrumb
`["A.vfsarc", "A.vfsarc:folder/inner.vfsarc"]`. -/
theorem nested_descend_breadcrumb_witness :
    onArchiveDoubleClicked (WinState.mk "A.vfsarc" "A.vfsarc" ["A.vfsarc"] [] [])
        NodeType.ArchiveFolder "folder/inner.vfsarc" (some "/tmp/inner") true ["x.txt"] =
      WinState.mk "/tmp/inner" "/tmp/inner"
        ["A.vfsarc", "A.vfsarc:folder/inner.vfsarc"]
        (populateFromList ["x.txt"] "" []) ["A.vfsarc"] :=
  nested_descend_breadcrumb (WinState.mk "A.vfsarc" "A.vfsarc" ["A.vfsarc"] [] [])
    "A.vfsarc" "folder/inner.vfsarc" "/tmp/inner" ["x.txt"] rfl rfl

/-- C9: when the manifest entry cannot be extracted, `loadMetadata`
returns a record with version `"1.0"`, the (non-empty) current timestamp
and tags `["new"]`, and writes the synthesized manifest back into the
archive via the backend's add-files operation — so the first open of a
manifest-less archive mutates the archive. -/
theorem loadMetadata_create_on_miss (now : String) (hnow : now ≠ "") :
    loadMetadata none now =
        (ArchiveMetadata.mk "1.0" now ["new"], some (ArchiveMetadata.mk "1.0" now ["new"])) ∧
      (ArchiveMetadata.mk "1.0" now ["new"]).created ≠ "" :=
  ⟨rfl, hnow⟩

/-- Witness for C9 at a concrete timestamp. -/
theorem loadMetadata_create_on_miss_witness :
    loadMetadata none "2026-10-11T00:00:00" =
        (ArchiveMetadata.mk "1.0" "2026-10-11T00:00:00" ["new"],
         some (ArchiveMetadata.mk "1.0" "2026-10-11T00:00:00" ["new"])) ∧
      (ArchiveMetadata.mk "1.0" "2026-10-11T00:00:00" ["new"]).created ≠ "" :=
  loadMetadata_create_on_miss "2026-10-11T00:00:00" (by decide)

/-- C4: the creation-time classification of `populateFromList` agrees
with the spec's rule (Folder when not the last segment or the entry ends
with `/`, else NestedArchive on the reserved case-insensitive suffix,
else File); in particular `"pkg.vfsarc"` materializes as
`ArchiveFolder`, `"docs/"` as `Folder`, and `"readme.txt"` as `File`. -/
theorem classification_rule :
    (∀ (i total : Nat) (e part : String), i < total →
        classify i total e part =
          classifySpec (decide (i = total - 1)) (qEndsWith e "/") part) ∧
      (nodeAtPath (populateFromList ["pkg.vfsarc"] "" []) ["pkg.vfsarc"]).map
        ArchiveItem.type = some NodeType.ArchiveFolder ∧
      (nodeAtPath (populateFromList ["docs/"] "" []) ["docs"]).map
        ArchiveItem.type = some NodeType.Folder ∧
      (nodeAtPath (populateFromList ["readme.txt"] "" []) ["readme.txt"]).map
        ArchiveItem.type = some NodeType.File := by
  refine ⟨?_, rfl, rfl, rfl⟩
  intro i total e part hit
  unfold classify classifySpec
  by_cases hlast : i = total - 1
  · have hnl : ¬ i < total - 1 := by omega
    cases hb : qEndsWith e "/" <;> simp [hlast, hnl, hb]
  · have hl : i < total - 1 := by omega
    simp [hlast, hl]

/-- Witness for C4: the rule instantiated at the last (only) segment of
`"pkg.vfsarc"`. -/
theorem classification_rule_witness :
    classify 0 1 "pkg.vfsarc" "pkg.vfsarc" =
      classifySpec (decide ((0 : Nat) = 1 - 1)) (qEndsWith "pkg.vfsarc" "/") "pkg.vfsarc" :=
  classification_rule.1 0 1 "pkg.vfsarc" "pkg.vfsarc" (by decide)

/-- C1 (violation): materializing `["a/b.txt", "a/c.txt"]` gives the
folder `"a"` the full path `"a"`, but its child `"c.txt"` — created
while descending through the already-existing `"a"` — gets full path
`"c.txt"` instead of parent's full path + `"/"` + name (`"a/c.txt"`):
the source only extends `accum` in the not-found branch
(`src/main.cpp` line 169). -/
theorem populateFromList_fullPath_violation :
    (nodeAtPath (populateFromList ["a/b.txt", "a/c.txt"] "" []) ["a"]).map
        ArchiveItem.fullPathInArchive = some "a" ∧
      (nodeAtPath (populateFromList ["a/b.txt", "a/c.txt"] "" []) ["a", "c.txt"]).map
        ArchiveItem.fullPathInArchive = some "c.txt" ∧
      some "c.txt" ≠ some ("a" ++ "/" ++ "c.txt") :=
  ⟨rfl, rfl, by decide⟩

/-- C2 (violation): over the folder `"a"` materialized from exactly
`["a/b.txt", "a/c/d.txt"]`, `collectPaths` yields
`["a/b.txt", "c/d.txt"]` — not the claimed `["a/b.txt", "a/c/d.txt"]` —
because the node `"d.txt"` was created with the wrong full path
(same `accum` slip as C1). -/
theorem collectPaths_example_violation :
    (nodeAtPath (populateFromList ["a/b.txt", "a/c/d.txt"] "" []) ["a"]).map collectPaths =
        some ["a/b.txt", "c/d.txt"] ∧
      (["a/b.txt", "c/d.txt"] : List String) ≠ ["a/b.txt", "a/c/d.txt"] :=
  ⟨rfl, by decide⟩
